import Mathlib

/-!
Verification development for the Mandelbrot explorer in src/MandelBrot.cpp.

The escape-time evaluator, the pixel-to-plane coordinate mapping, the
tile-based render scheduler and the viewport operations (zoom, resize) are
embedded shallowly: machine doubles become exact rationals, the pixel buffer
becomes a function from flat indices to colors, and the per-thread tile loops
become folds over the lists of indices each worker iterates.
-/

/- Constants from the top of MandelBrot.cpp. -/

def WIDTH : ℕ := 900

def HEIGHT : ℕ := 900

def MAX_ITER : ℕ := 100

def TILE_SIZE : ℕ := 64

/- Colors: BLACK is the raylib constant used for interior points, and
ColorFromHSV (an external raylib call) is kept abstract as a constructor
recording its three arguments. -/

inductive Color where
  | black : Color
  | fromHSV (hue : ℕ) (sat val : ℚ) : Color
deriving DecidableEq

/- The four plane bounds Re_min, Re_max, Im_min, Im_max held by main. -/

structure Viewport where
  Re_min : ℚ
  Re_max : ℚ
  Im_min : ℚ
  Im_max : ℚ
deriving DecidableEq

/- mandelbrotEscape, lines 61-124: the main-cardioid test with
q = (cx - 0.25)^2 + cy^2. -/

def inCardioid (cx cy : ℚ) : Prop :=
  ((cx - 1/4) * (cx - 1/4) + cy * cy) *
      (((cx - 1/4) * (cx - 1/4) + cy * cy) + (cx - 1/4)) <
    (1/4) * (cy * cy)

instance (cx cy : ℚ) : Decidable (inCardioid cx cy) := by
  unfold inCardioid; exact inferInstance

/- The period-2 bulb test (cx + 1)^2 + cy^2 < 0.0625. -/

def inBulb (cx cy : ℚ) : Prop :=
  (cx + 1) * (cx + 1) + cy * cy < 1/16

instance (cx cy : ℚ) : Decidable (inBulb cx cy) := by
  unfold inBulb; exact inferInstance

/- The trivial-exterior test cx^2 + cy^2 > 4.0. -/

def isOutside (cx cy : ℚ) : Prop :=
  4 < cx * cx + cy * cy

instance (cx cy : ℚ) : Decidable (isOutside cx cy) := by
  unfold isOutside; exact inferInstance

/- The do-while loop of mandelbrotEscape.  The body saves zx2 = zx*zx and
zy2 = zy*zy, updates zy before zx (so both updates read the pre-update zx,
zy), increments n, and the guard zx2 + zy2 <= 4.0 && n < max_iter reads the
squares saved before the update.  Here n is the counter value before the
body runs, so the guard compares n + 1 with max_iter and the exit returns
n + 1. -/

def mandelIter (cx cy zx zy : ℚ) (n maxIter : ℕ) : ℕ :=
  if h : zx * zx + zy * zy ≤ 4 ∧ n + 1 < maxIter then
    mandelIter cx cy (zx * zx - zy * zy + cx) (2 * zx * zy + cy) (n + 1) maxIter
  else
    n + 1
termination_by maxIter - n
decreasing_by
  omega

/- mandelbrotEscape, lines 61-124 in full: the three short-circuit tests in
source order, then the iterative loop from z = 0. -/

def mandelbrotEscape (cx cy : ℚ) (maxIter : ℕ) : ℕ :=
  if inCardioid cx cy then maxIter
  else if inBulb cx cy then maxIter
  else if isOutside cx cy then 0
  else mandelIter cx cy 0 0 0 maxIter

/- The orbit z_0 = 0, z_{k+1} = z_k^2 + c, written with the same real and
imaginary decomposition as the loop body. -/

def zorbit (cx cy : ℚ) : ℕ → ℚ × ℚ
  | 0 => (0, 0)
  | k + 1 =>
    let z := zorbit cx cy k
    (z.1 * z.1 - z.2 * z.2 + cx, 2 * z.1 * z.2 + cy)

def normSqZ (cx cy : ℚ) (k : ℕ) : ℚ :=
  (zorbit cx cy k).1 * (zorbit cx cy k).1 + (zorbit cx cy k).2 * (zorbit cx cy k).2

/- Modelled from the spec: the iteration count the claim attributes to the
loop, min(nstar, maxIter) where nstar is the least n with normSqZ > 4,
found by searching n = 1, 2, ... -/

def specEscapeFrom (cx cy : ℚ) (maxIter n : ℕ) : ℕ :=
  if h : n < maxIter then
    if 4 < normSqZ cx cy n then n else specEscapeFrom cx cy maxIter (n + 1)
  else maxIter
termination_by maxIter - n
decreasing_by
  omega

def specEscapeCount (cx cy : ℚ) (maxIter : ℕ) : ℕ :=
  specEscapeFrom cx cy maxIter 1

/- The count the loop actually produces: the least k = j + 1 >= 1 whose
guard reads an escaped square normSqZ at j (the iterate before the final
update), clamped to maxIter. -/

def lagEscapeFrom (cx cy : ℚ) (maxIter j : ℕ) : ℕ :=
  if h : j + 1 < maxIter then
    if 4 < normSqZ cx cy j then j + 1 else lagEscapeFrom cx cy maxIter (j + 1)
  else maxIter
termination_by maxIter - j
decreasing_by
  omega

/- The pixel-to-plane mapping used in RenderTile (lines 178-179) and for
the mouse position in the zoom handler (lines 325-328). -/

def toComplexRe (x : ℚ) (width : ℕ) (rmin rmax : ℚ) : ℚ :=
  rmin + (x / width) * (rmax - rmin)

def toComplexIm (y : ℚ) (height : ℕ) (imin imax : ℚ) : ℚ :=
  imax - (y / height) * (imax - imin)

/- The color mapping of RenderTile, lines 183-189: BLACK at the cap,
otherwise ColorFromHSV((int)(255.0 * n / MAX_ITER), 0.5f, 1.2f); the
float-to-int cast truncates, which is natural-number division here. -/

def colorize (n maxIter : ℕ) : Color :=
  if n = maxIter then Color.black
  else Color.fromHSV (255 * n / maxIter) (1/2) (6/5)

/- The complete per-pixel computation of RenderTile at pixel (x, y). -/

def pixelColor (x y width height : ℕ) (rmin rmax imin imax : ℚ) : Color :=
  colorize
    (mandelbrotEscape (toComplexRe x width rmin rmax) (toComplexIm y height imin imax)
      MAX_ITER)
    MAX_ITER

/- RenderTile, lines 159-194: the clipped tile bounds and the row-major
double loop writing pixelBuffer[y * width + x]. -/

def renderTile (tileX tileY width height : ℕ) (rmin rmax imin imax : ℚ)
    (buf : ℕ → Color) : ℕ → Color :=
  let startX := tileX * TILE_SIZE
  let endX := min (startX + TILE_SIZE) width
  let startY := tileY * TILE_SIZE
  let endY := min (startY + TILE_SIZE) height
  (List.range' startY (endY - startY)).foldl
    (fun b y =>
      (List.range' startX (endX - startX)).foldl
        (fun b2 x =>
          Function.update b2 (y * width + x) (pixelColor x y width height rmin rmax imin imax))
        b)
    buf

/- The tile region a pixel (x, y) belongs to, phrased with the same clipped
bounds RenderTile computes. -/

def pixelInTile (tileX tileY width height x y : ℕ) : Prop :=
  tileX * TILE_SIZE ≤ x ∧ x < min (tileX * TILE_SIZE + TILE_SIZE) width ∧
  tileY * TILE_SIZE ≤ y ∧ y < min (tileY * TILE_SIZE + TILE_SIZE) height

/- The tile grid of main, lines 386-388. -/

def tilesX (width : ℕ) : ℕ := (width + TILE_SIZE - 1) / TILE_SIZE

def tilesY (height : ℕ) : ℕ := (height + TILE_SIZE - 1) / TILE_SIZE

def totalTiles (width height : ℕ) : ℕ := tilesX width * tilesY height

/- The worker count of main, line 392: numThreads is exactly the hardware
concurrency the environment reports, with no lower clamp. -/

def numThreads (hardwareConcurrency : ℕ) : ℕ := hardwareConcurrency

/- The tile indices worker t iterates, line 397: tileIdx = t, t + W,
t + 2W, ... while tileIdx < totalTiles, a step-W arithmetic range with
ceil((total - t) / W) elements. -/

def workerTiles (t nThreads total : ℕ) : List ℕ :=
  List.range' t ((total - t + (nThreads - 1)) / nThreads) nThreads

/- One render pass of main, lines 390-409: every worker t in 0..W-1 runs
RenderTile on each of its tiles, decoding tileX = tileIdx % tilesX and
tileY = tileIdx / tilesX.  Tile writes land in disjoint buffer regions, so
the concurrent pass is modelled as the workers run in sequence. -/

def renderPass (rmin rmax imin imax : ℚ) (width height nThreads : ℕ)
    (buf : ℕ → Color) : ℕ → Color :=
  (List.range nThreads).foldl
    (fun b t =>
      (workerTiles t nThreads (totalTiles width height)).foldl
        (fun b2 tileIdx =>
          renderTile (tileIdx % tilesX width) (tileIdx / tilesX width) width height
            rmin rmax imin imax b2)
        b)
    buf

/- The wheel zoom handler of main, lines 323-340: the mouse position is
mapped to the plane, the ranges are scaled by 0.8 or 1.25 by wheel sign,
and the new bounds are centered on the mapped mouse point. -/

def zoomView (v : Viewport) (width height : ℕ) (mouseX mouseY wheel : ℚ) : Viewport :=
  let mouseRe := v.Re_min + (mouseX / width) * (v.Re_max - v.Re_min)
  let mouseIm := v.Im_max - (mouseY / height) * (v.Im_max - v.Im_min)
  let zoomFactor : ℚ := if 0 < wheel then 4/5 else 5/4
  let newWidth := (v.Re_max - v.Re_min) * zoomFactor
  let newHeight := (v.Im_max - v.Im_min) * zoomFactor
  { Re_min := mouseRe - newWidth / 2
    Re_max := mouseRe + newWidth / 2
    Im_min := mouseIm - newHeight / 2
    Im_max := mouseIm + newHeight / 2 }

/- The resize handler of main, lines 252-271: both ranges scale by the
ratio of new to old raster size, recentered on the old plane center. -/

def resizeView (v : Viewport) (currentWidth currentHeight newW newH : ℕ) : Viewport :=
  let widthScale : ℚ := (newW : ℚ) / currentWidth
  let heightScale : ℚ := (newH : ℚ) / currentHeight
  let currentRealRange := v.Re_max - v.Re_min
  let currentImagRange := v.Im_max - v.Im_min
  let centerReal := (v.Re_min + v.Re_max) / 2
  let centerImag := (v.Im_min + v.Im_max) / 2
  let newRealRange := currentRealRange * widthScale
  let newImagRange := currentImagRange * heightScale
  { Re_min := centerReal - newRealRange / 2
    Re_max := centerReal + newRealRange / 2
    Im_min := centerImag - newImagRange / 2
    Im_max := centerImag + newImagRange / 2 }

/- The startup bounds of main, lines 203-208, also restored by the R key. -/

def defaultView : Viewport :=
  { Re_min := -2, Re_max := 3/2, Im_min := -3/2, Im_max := 3/2 }

/-! ### Stepping lemmas for the loop embeddings -/

lemma mandelIter_step {cx cy zx zy : ℚ} {n m : ℕ}
    (h : zx * zx + zy * zy ≤ 4 ∧ n + 1 < m) :
    mandelIter cx cy zx zy n m =
      mandelIter cx cy (zx * zx - zy * zy + cx) (2 * zx * zy + cy) (n + 1) m := by
  rw [mandelIter, dif_pos h]

lemma mandelIter_stop {cx cy zx zy : ℚ} {n m : ℕ}
    (h : ¬(zx * zx + zy * zy ≤ 4 ∧ n + 1 < m)) :
    mandelIter cx cy zx zy n m = n + 1 := by
  rw [mandelIter, dif_neg h]

lemma specEscapeFrom_cont {cx cy : ℚ} {m n : ℕ}
    (h1 : n < m) (h2 : ¬ 4 < normSqZ cx cy n) :
    specEscapeFrom cx cy m n = specEscapeFrom cx cy m (n + 1) := by
  rw [specEscapeFrom, dif_pos h1, if_neg h2]

lemma specEscapeFrom_esc {cx cy : ℚ} {m n : ℕ}
    (h1 : n < m) (h2 : 4 < normSqZ cx cy n) :
    specEscapeFrom cx cy m n = n := by
  rw [specEscapeFrom, dif_pos h1, if_pos h2]

lemma specEscapeFrom_stop {cx cy : ℚ} {m n : ℕ} (h : ¬ n < m) :
    specEscapeFrom cx cy m n = m := by
  rw [specEscapeFrom, dif_neg h]

lemma lagEscapeFrom_cont {cx cy : ℚ} {m j : ℕ}
    (h1 : j + 1 < m) (h2 : ¬ 4 < normSqZ cx cy j) :
    lagEscapeFrom cx cy m j = lagEscapeFrom cx cy m (j + 1) := by
  rw [lagEscapeFrom, dif_pos h1, if_neg h2]

lemma lagEscapeFrom_esc {cx cy : ℚ} {m j : ℕ}
    (h1 : j + 1 < m) (h2 : 4 < normSqZ cx cy j) :
    lagEscapeFrom cx cy m j = j + 1 := by
  rw [lagEscapeFrom, dif_pos h1, if_pos h2]

lemma lagEscapeFrom_stop {cx cy : ℚ} {m j : ℕ} (h : ¬ j + 1 < m) :
    lagEscapeFrom cx cy m j = m := by
  rw [lagEscapeFrom, dif_neg h]

/-! ### Bounds, symmetry and the lagged-count characterization of the loop -/

lemma mandelIter_bounds_aux (cx cy : ℚ) (m : ℕ) :
    ∀ d n zx zy, m - n = d → n < m →
      n + 1 ≤ mandelIter cx cy zx zy n m ∧ mandelIter cx cy zx zy n m ≤ m := by
  intro d
  induction d using Nat.strong_induction_on with
  | _ d ih =>
    intro n zx zy hd hn
    by_cases h : zx * zx + zy * zy ≤ 4 ∧ n + 1 < m
    · rw [mandelIter_step h]
      have hrec := ih (m - (n + 1)) (by omega) (n + 1)
        (zx * zx - zy * zy + cx) (2 * zx * zy + cy) rfl h.2
      exact ⟨Nat.le_of_succ_le hrec.1, hrec.2⟩
    · rw [mandelIter_stop h]
      exact ⟨Nat.le_refl _, by omega⟩

lemma mandelIter_neg_aux (cx cy : ℚ) (m : ℕ) :
    ∀ d n zx zy, m - n = d →
      mandelIter cx (-cy) zx (-zy) n m = mandelIter cx cy zx zy n m := by
  intro d
  induction d using Nat.strong_induction_on with
  | _ d ih =>
    intro n zx zy hd
    by_cases h : zx * zx + zy * zy ≤ 4 ∧ n + 1 < m
    · have hneg : zx * zx + (-zy) * (-zy) ≤ 4 ∧ n + 1 < m := by
        constructor
        · have : zx * zx + (-zy) * (-zy) = zx * zx + zy * zy := by ring
          rw [this]; exact h.1
        · exact h.2
      rw [mandelIter_step hneg, mandelIter_step h]
      have e1 : zx * zx - (-zy) * (-zy) + cx = zx * zx - zy * zy + cx := by ring
      have e2 : 2 * zx * (-zy) + (-cy) = -(2 * zx * zy + cy) := by ring
      rw [e1, e2]
      exact ih (m - (n + 1)) (by omega) (n + 1) _ _ rfl
    · have hneg : ¬(zx * zx + (-zy) * (-zy) ≤ 4 ∧ n + 1 < m) := by
        have : zx * zx + (-zy) * (-zy) = zx * zx + zy * zy := by ring
        rw [this]; exact h
      rw [mandelIter_stop hneg, mandelIter_stop h]

lemma zorbit_succ (cx cy : ℚ) (k : ℕ) :
    zorbit cx cy (k + 1) =
      ((zorbit cx cy k).1 * (zorbit cx cy k).1 - (zorbit cx cy k).2 * (zorbit cx cy k).2 + cx,
        2 * (zorbit cx cy k).1 * (zorbit cx cy k).2 + cy) := rfl

lemma mandelIter_eq_lag_aux (cx cy : ℚ) (m : ℕ) :
    ∀ d j, m - j = d → j < m →
      mandelIter cx cy (zorbit cx cy j).1 (zorbit cx cy j).2 j m = lagEscapeFrom cx cy m j := by
  intro d
  induction d using Nat.strong_induction_on with
  | _ d ih =>
    intro j hd hj
    by_cases h : normSqZ cx cy j ≤ 4 ∧ j + 1 < m
    · have hstep : (zorbit cx cy j).1 * (zorbit cx cy j).1 +
          (zorbit cx cy j).2 * (zorbit cx cy j).2 ≤ 4 ∧ j + 1 < m := h
      rw [mandelIter_step hstep]
      have hz := zorbit_succ cx cy j
      have e1 : (zorbit cx cy j).1 * (zorbit cx cy j).1 -
          (zorbit cx cy j).2 * (zorbit cx cy j).2 + cx = (zorbit cx cy (j + 1)).1 := by
        rw [hz]
      have e2 : 2 * (zorbit cx cy j).1 * (zorbit cx cy j).2 + cy =
          (zorbit cx cy (j + 1)).2 := by
        rw [hz]
      rw [e1, e2, ih (m - (j + 1)) (by omega) (j + 1) rfl h.2,
        lagEscapeFrom_cont h.2 (not_lt.mpr h.1)]
    · rw [mandelIter_stop h]
      by_cases h2 : j + 1 < m
      · have h3 : 4 < normSqZ cx cy j := by
          by_contra h4
          exact h ⟨not_lt.mp h4, h2⟩
        rw [lagEscapeFrom_esc h2 h3]
      · rw [lagEscapeFrom_stop h2]
        omega

lemma mandelIter_eq_lag (cx cy : ℚ) (m : ℕ) (hm : 0 < m) :
    mandelIter cx cy 0 0 0 m = lagEscapeFrom cx cy m 0 := by
  have h := mandelIter_eq_lag_aux cx cy m (m - 0) 0 rfl hm
  have hz : zorbit cx cy 0 = ((0 : ℚ), (0 : ℚ)) := rfl
  rw [hz] at h
  exact h

/-! ### The closed-form interior tests never capture exterior points -/

lemma inCardioid_not_outside {cx cy : ℚ} (h : inCardioid cx cy) :
    cx * cx + cy * cy ≤ 4 := by
  rw [inCardioid] at h
  have ha : 0 ≤ (cx - 1/4) * (cx - 1/4) := mul_self_nonneg _
  have hcy : 0 ≤ cy * cy := mul_self_nonneg _
  have hq0 : 0 ≤ (cx - 1/4) * (cx - 1/4) + cy * cy := by linarith
  rcases eq_or_lt_of_le hq0 with heq | hpos
  · exfalso
    have hq : (cx - 1/4) * (cx - 1/4) + cy * cy = 0 := heq.symm
    have h1 : cy * cy ≤ 0 := by nlinarith
    rw [hq] at h
    nlinarith
  · have h5 : ((cx - 1/4) * (cx - 1/4) + cy * cy) + (cx - 1/4) < 1/4 := by
      nlinarith
    nlinarith [sq_nonneg (cx + 1/2)]

lemma inBulb_not_outside {cx cy : ℚ} (h : inBulb cx cy) :
    cx * cx + cy * cy ≤ 4 := by
  rw [inBulb] at h
  nlinarith [sq_nonneg (cx + 2), sq_nonneg cy]

/-! ### Pointwise behaviour of folds over buffer-transforming steps -/

lemma foldl_pointwise_stable (step : (ℕ → Color) → ℕ → (ℕ → Color)) (i : ℕ) (v : Color)
    (hstep : ∀ b x, b i = v → step b x i = v) :
    ∀ (l : List ℕ) (b : ℕ → Color), b i = v → (l.foldl step b) i = v := by
  intro l
  induction l with
  | nil => intro b hb; exact hb
  | cons a t ih => intro b hb; exact ih (step b a) (hstep b a hb)

lemma foldl_pointwise_hit (step : (ℕ → Color) → ℕ → (ℕ → Color)) (i : ℕ) (v : Color)
    (x0 : ℕ) (hwrite : ∀ b, step b x0 i = v)
    (hstep : ∀ b x, b i = v → step b x i = v) :
    ∀ (l : List ℕ) (b : ℕ → Color), x0 ∈ l → (l.foldl step b) i = v := by
  intro l
  induction l with
  | nil => intro b hb; cases hb
  | cons a t ih =>
    intro b hb
    rcases List.mem_cons.mp hb with heq | hmem
    · subst heq
      exact foldl_pointwise_stable step i v hstep t (step b x0) (hwrite b)
    · exact ih (step b a) hmem

lemma foldl_pointwise_frame (step : (ℕ → Color) → ℕ → (ℕ → Color)) (i : ℕ) :
    ∀ (l : List ℕ) (b : ℕ → Color), (∀ x ∈ l, ∀ b2, step b2 x i = b2 i) →
      (l.foldl step b) i = b i := by
  intro l
  induction l with
  | nil => intro b _; rfl
  | cons a t ih =>
    intro b hfr
    rw [List.foldl_cons,
      ih (step b a) (fun x hx b2 => hfr x (List.mem_cons_of_mem a hx) b2),
      hfr a (List.mem_cons_self a t) b]

/-! ### Row-major index encoding -/

lemma encode_inj {w x1 x2 y1 y2 : ℕ} (h1 : x1 < w) (h2 : x2 < w)
    (he : y1 * w + x1 = y2 * w + x2) : x1 = x2 ∧ y1 = y2 := by
  have hw : 0 < w := Nat.lt_of_le_of_lt (Nat.zero_le x1) h1
  have he2 : x1 + y1 * w = x2 + y2 * w := by
    rw [Nat.add_comm x1, Nat.add_comm x2]; exact he
  have e1 : (x1 + y1 * w) % w = x1 := by
    rw [Nat.add_mul_mod_self_right, Nat.mod_eq_of_lt h1]
  have e2 : (x2 + y2 * w) % w = x2 := by
    rw [Nat.add_mul_mod_self_right, Nat.mod_eq_of_lt h2]
  have d1 : (x1 + y1 * w) / w = y1 := by
    rw [Nat.add_mul_div_right _ _ hw, Nat.div_eq_of_lt h1, Nat.zero_add]
  have d2 : (x2 + y2 * w) / w = y2 := by
    rw [Nat.add_mul_div_right _ _ hw, Nat.div_eq_of_lt h2, Nat.zero_add]
  constructor
  · rw [← e1, ← e2, he2]
  · rw [← d1, ← d2, he2]

lemma decode_mod {base tX tY : ℕ} (h : tX < base) : (tY * base + tX) % base = tX := by
  rw [Nat.add_comm, Nat.add_mul_mod_self_right, Nat.mod_eq_of_lt h]

lemma decode_div {base tX tY : ℕ} (h : tX < base) : (tY * base + tX) / base = tY := by
  have hb : 0 < base := Nat.lt_of_le_of_lt (Nat.zero_le tX) h
  rw [Nat.add_comm, Nat.add_mul_div_right _ _ hb, Nat.div_eq_of_lt h, Nat.zero_add]

/-! ### Rows of a tile -/

lemma row_frame (w : ℕ) (g : ℕ → Color) (y i sX len : ℕ) (b : ℕ → Color)
    (h : ∀ x, sX ≤ x → x < sX + len → i ≠ y * w + x) :
    ((List.range' sX len).foldl (fun b2 x => Function.update b2 (y * w + x) (g x)) b) i
      = b i := by
  apply foldl_pointwise_frame
  intro x hx b2
  rw [List.mem_range'_1] at hx
  exact Function.update_noteq (h x hx.1 hx.2) _ _

lemma row_hit (w : ℕ) (g : ℕ → Color) (y x0 sX len : ℕ) (b : ℕ → Color)
    (hx0 : sX ≤ x0 ∧ x0 < sX + len) :
    ((List.range' sX len).foldl (fun b2 x => Function.update b2 (y * w + x) (g x)) b)
      (y * w + x0) = g x0 := by
  apply foldl_pointwise_hit _ _ _ x0
  · intro b2
    exact Function.update_same _ _ _
  · intro b2 x hb2
    by_cases hxx : y * w + x0 = y * w + x
    · have : x0 = x := by omega
      subst this
      exact Function.update_same _ _ _
    · rw [Function.update_noteq hxx]
      exact hb2
  · exact List.mem_range'_1.mpr hx0

lemma row_stable_pixel (w len sX : ℕ) (g : ℕ → ℕ → Color) (x0 y0 y : ℕ) (b : ℕ → Color)
    (hx0 : x0 < w) (hmem : ∀ x, sX ≤ x → x < sX + len → x < w)
    (hb : b (y0 * w + x0) = g x0 y0) :
    ((List.range' sX len).foldl
        (fun b2 x => Function.update b2 (y * w + x) (g x y)) b) (y0 * w + x0)
      = g x0 y0 := by
  by_cases hex : ∃ x, sX ≤ x ∧ x < sX + len ∧ y * w + x = y0 * w + x0
  · obtain ⟨x, hx1, hx2, he⟩ := hex
    obtain ⟨hxe, hye⟩ := encode_inj (hmem x hx1 hx2) hx0 he
    rw [← hxe, ← hye]
    exact row_hit w (fun z => g z y) y x sX len b ⟨hx1, hx2⟩
  · rw [row_frame w (fun x => g x y) y (y0 * w + x0) sX len b ?_]
    · exact hb
    · intro x h1 h2 hne
      exact hex ⟨x, h1, h2, hne.symm⟩

/-! ### Tile-level pointwise behaviour of RenderTile -/

lemma renderTile_apply_frame (tX tY w h : ℕ) (rmin rmax imin imax : ℚ)
    (b : ℕ → Color) (i : ℕ)
    (hout : ∀ x y, tX * TILE_SIZE ≤ x → x < min (tX * TILE_SIZE + TILE_SIZE) w →
      tY * TILE_SIZE ≤ y → y < min (tY * TILE_SIZE + TILE_SIZE) h → i ≠ y * w + x) :
    renderTile tX tY w h rmin rmax imin imax b i = b i := by
  simp only [renderTile]
  apply foldl_pointwise_frame
  intro y hy b2
  rw [List.mem_range'_1] at hy
  apply row_frame
  intro x h1 h2
  exact hout x y h1 (by omega) hy.1 (by omega)

lemma renderTile_apply_in (tX tY w h : ℕ) (rmin rmax imin imax : ℚ)
    (b : ℕ → Color) (x0 y0 : ℕ)
    (hin : pixelInTile tX tY w h x0 y0) :
    renderTile tX tY w h rmin rmax imin imax b (y0 * w + x0)
      = pixelColor x0 y0 w h rmin rmax imin imax := by
  obtain ⟨ha, hb2, hc, hd⟩ := hin
  have hx0w : x0 < w := by omega
  simp only [renderTile]
  apply foldl_pointwise_hit _ _ _ y0
  · intro b3
    exact row_hit w (fun x => pixelColor x y0 w h rmin rmax imin imax) y0 x0
      (tX * TILE_SIZE) (min (tX * TILE_SIZE + TILE_SIZE) w - tX * TILE_SIZE) b3
      ⟨ha, by omega⟩
  · intro b3 y hb3
    exact row_stable_pixel w (min (tX * TILE_SIZE + TILE_SIZE) w - tX * TILE_SIZE)
      (tX * TILE_SIZE) (fun x y => pixelColor x y w h rmin rmax imin imax)
      x0 y0 y b3 hx0w (fun x h1 h2 => by omega) hb3
  · exact List.mem_range'_1.mpr ⟨hc, by omega⟩

lemma renderTile_apply_stable (tX tY w h : ℕ) (rmin rmax imin imax : ℚ)
    (b : ℕ → Color) (x0 y0 : ℕ) (hx0 : x0 < w)
    (hb : b (y0 * w + x0) = pixelColor x0 y0 w h rmin rmax imin imax) :
    renderTile tX tY w h rmin rmax imin imax b (y0 * w + x0)
      = pixelColor x0 y0 w h rmin rmax imin imax := by
  simp only [renderTile]
  apply foldl_pointwise_stable _ _ _ ?_ _ b hb
  intro b3 y hb3
  exact row_stable_pixel w (min (tX * TILE_SIZE + TILE_SIZE) w - tX * TILE_SIZE)
    (tX * TILE_SIZE) (fun x y => pixelColor x y w h rmin rmax imin imax)
    x0 y0 y b3 hx0 (fun x h1 h2 => by omega) hb3

/-! ### Round-robin worker assignment -/

lemma mem_workerTiles {W total idx : ℕ} (hW : 0 < W) (hidx : idx < total) :
    idx ∈ workerTiles (idx % W) W total := by
  rw [workerTiles, List.mem_range']
  refine ⟨idx / W, ?_, (Nat.mod_add_div idx W).symm⟩
  have h1 : idx % W + W * (idx / W) = idx := Nat.mod_add_div idx W
  have h2 : idx % W < W := Nat.mod_lt _ hW
  rw [Nat.lt_iff_add_one_le, Nat.le_div_iff_mul_le hW]
  have h3 : (idx / W + 1) * W = W * (idx / W) + W := by ring
  rw [h3]
  generalize W * (idx / W) = a at h1 ⊢
  omega

lemma workerTiles_mem_elim {W total idx t : ℕ} (ht : t < W)
    (h : idx ∈ workerTiles t W total) : t = idx % W ∧ idx < total := by
  rw [workerTiles, List.mem_range'] at h
  obtain ⟨j, hj, he⟩ := h
  have hW : 0 < W := Nat.lt_of_le_of_lt (Nat.zero_le t) ht
  constructor
  · rw [he, Nat.add_mul_mod_self_left, Nat.mod_eq_of_lt ht]
  · have h4 : j + 1 ≤ (total - t + (W - 1)) / W := hj
    rw [Nat.le_div_iff_mul_le hW] at h4
    have h5 : (j + 1) * W = W * j + W := by ring
    rw [h5] at h4
    rw [he]
    generalize W * j = a at h4 ⊢
    omega

/-! ### Each pixel of the raster receives its own color in a render pass -/

lemma div_lt_tilesX {x w : ℕ} (hx : x < w) : x / TILE_SIZE < tilesX w := by
  simp only [tilesX, TILE_SIZE]
  omega

lemma div_lt_tilesY {y h : ℕ} (hy : y < h) : y / TILE_SIZE < tilesY h := by
  simp only [tilesY, TILE_SIZE]
  omega

lemma pixelInTile_self {w h x y : ℕ} (hx : x < w) (hy : y < h) :
    pixelInTile (x / TILE_SIZE) (y / TILE_SIZE) w h x y := by
  simp only [pixelInTile, TILE_SIZE]
  omega

lemma renderPass_pixel (rmin rmax imin imax : ℚ) (w h W : ℕ) (buf : ℕ → Color)
    (hW : 1 ≤ W) (x0 y0 : ℕ) (hx : x0 < w) (hy : y0 < h) :
    renderPass rmin rmax imin imax w h W buf (y0 * w + x0)
      = pixelColor x0 y0 w h rmin rmax imin imax := by
  have htX : x0 / TILE_SIZE < tilesX w := div_lt_tilesX hx
  have htY : y0 / TILE_SIZE < tilesY h := div_lt_tilesY hy
  have htot : (y0 / TILE_SIZE) * tilesX w + x0 / TILE_SIZE < totalTiles w h := by
    simp only [totalTiles]
    have h4 : (y0 / TILE_SIZE + 1) * tilesX w ≤ tilesY h * tilesX w :=
      Nat.mul_le_mul_right _ htY
    have h5 : (y0 / TILE_SIZE + 1) * tilesX w
        = (y0 / TILE_SIZE) * tilesX w + tilesX w := by ring
    have h6 : tilesY h * tilesX w = tilesX w * tilesY h := Nat.mul_comm _ _
    rw [h5, h6] at h4
    omega
  have hmem0 := mem_workerTiles hW htot
  simp only [renderPass]
  apply foldl_pointwise_hit _ _ _ (((y0 / TILE_SIZE) * tilesX w + x0 / TILE_SIZE) % W)
  · intro b2
    apply foldl_pointwise_hit _ _ _ ((y0 / TILE_SIZE) * tilesX w + x0 / TILE_SIZE)
    · intro b3
      rw [decode_mod htX, decode_div htX]
      exact renderTile_apply_in _ _ _ _ _ _ _ _ _ _ _ (pixelInTile_self hx hy)
    · intro b3 idx hb3
      exact renderTile_apply_stable _ _ _ _ _ _ _ _ _ _ _ hx hb3
    · exact hmem0
  · intro b2 t hb2
    apply foldl_pointwise_stable _ _ _ ?_ _ b2 hb2
    intro b3 idx hb3
    exact renderTile_apply_stable _ _ _ _ _ _ _ _ _ _ _ hx hb3
  · exact List.mem_range.mpr (Nat.mod_lt _ hW)

lemma tileIndex_lt_total {w h x y : ℕ} (hx : x < w) (hy : y < h) :
    (y / TILE_SIZE) * tilesX w + x / TILE_SIZE < totalTiles w h := by
  have htX := div_lt_tilesX hx
  have htY := div_lt_tilesY hy
  simp only [totalTiles]
  have h4 : (y / TILE_SIZE + 1) * tilesX w ≤ tilesY h * tilesX w :=
    Nat.mul_le_mul_right _ htY
  have h5 : (y / TILE_SIZE + 1) * tilesX w
      = (y / TILE_SIZE) * tilesX w + tilesX w := by ring
  have h6 : tilesY h * tilesX w = tilesX w * tilesY h := Nat.mul_comm _ _
  rw [h5, h6] at h4
  omega

/-! ### Claims -/

/-- C3: for every c = (cx, cy) and every maxIter at least 1, mandelbrotEscape
returns a count of at most maxIter (it is a natural number, hence at least 0),
and the count is 0 exactly when cx^2 + cy^2 > 4.0: the cardioid and bulb
shortcuts never capture such exterior points, and the iterative branch never
returns 0. -/
theorem escape_range_and_zero_iff (cx cy : ℚ) (m : ℕ) (hm : 1 ≤ m) :
    mandelbrotEscape cx cy m ≤ m ∧
      (mandelbrotEscape cx cy m = 0 ↔ 4 < cx * cx + cy * cy) := by
  have hloop := mandelIter_bounds_aux cx cy m (m - 0) 0 0 0 rfl hm
  rw [mandelbrotEscape]
  by_cases h1 : inCardioid cx cy
  · rw [if_pos h1]
    refine ⟨Nat.le_refl m, ?_, ?_⟩
    · intro h0
      exact absurd h0 (by omega)
    · intro hout
      exact absurd (inCardioid_not_outside h1) (not_le.mpr hout)
  · rw [if_neg h1]
    by_cases h2 : inBulb cx cy
    · rw [if_pos h2]
      refine ⟨Nat.le_refl m, ?_, ?_⟩
      · intro h0
        exact absurd h0 (by omega)
      · intro hout
        exact absurd (inBulb_not_outside h2) (not_le.mpr hout)
    · rw [if_neg h2]
      by_cases h3 : isOutside cx cy
      · rw [if_pos h3]
        rw [isOutside] at h3
        exact ⟨Nat.zero_le m, fun _ => h3, fun _ => rfl⟩
      · rw [if_neg h3]
        rw [isOutside] at h3
        refine ⟨hloop.2, ?_, ?_⟩
        · intro h0
          have := hloop.1
          exact absurd h0 (by omega)
        · intro hout
          exact absurd hout h3

/-- C3 witness: at c = (3, 0) with maxIter = 100 the theorem applies. -/
theorem escape_range_and_zero_iff_witness :
    1 ≤ 100 ∧
      (mandelbrotEscape 3 0 100 ≤ 100 ∧
        (mandelbrotEscape 3 0 100 = 0 ↔ 4 < (3 : ℚ) * 3 + 0 * 0)) :=
  ⟨by norm_num, escape_range_and_zero_iff 3 0 100 (by norm_num)⟩

/-- C6: conjugation symmetry, mandelbrotEscape(cx, cy, m) equals
mandelbrotEscape(cx, -cy, m) for every point and every iteration cap. -/
theorem escape_conj_symmetry (cx cy : ℚ) (m : ℕ) :
    mandelbrotEscape cx cy m = mandelbrotEscape cx (-cy) m := by
  have e1 : inCardioid cx (-cy) ↔ inCardioid cx cy := by
    rw [inCardioid, inCardioid]
    have hc : (-cy) * (-cy) = cy * cy := by ring
    rw [hc]
  have e2 : inBulb cx (-cy) ↔ inBulb cx cy := by
    rw [inBulb, inBulb]
    have hc : (-cy) * (-cy) = cy * cy := by ring
    rw [hc]
  have e3 : isOutside cx (-cy) ↔ isOutside cx cy := by
    rw [isOutside, isOutside]
    have hc : (-cy) * (-cy) = cy * cy := by ring
    rw [hc]
  have e4 : mandelIter cx (-cy) 0 0 0 m = mandelIter cx cy 0 0 0 m := by
    have hiter := mandelIter_neg_aux cx cy m (m - 0) 0 0 0 rfl
    rw [neg_zero] at hiter
    exact hiter
  rw [mandelbrotEscape, mandelbrotEscape]
  simp only [e1, e2, e3, e4]

/-- C2 counterexample: c = (2, 0) passes all three short-circuit tests and has
maxIter = 100 at least 1, the least n with normSqZ above 4 is n = 2 (so the
claimed count min(nstar, maxIter) is 2), yet mandelbrotEscape returns 3: the
guard reads the squares saved before the update, so the loop runs one step
past the escape. -/
theorem escape_count_off_by_one :
    ¬ inCardioid 2 0 ∧ ¬ inBulb 2 0 ∧ ¬ isOutside 2 0 ∧
      mandelbrotEscape 2 0 100 = 3 ∧ specEscapeCount 2 0 100 = 2 ∧
      mandelbrotEscape 2 0 100 ≠ specEscapeCount 2 0 100 := by
  have h1 : ¬ inCardioid 2 0 := by norm_num [inCardioid]
  have h2 : ¬ inBulb 2 0 := by norm_num [inBulb]
  have h3 : ¬ isOutside 2 0 := by norm_num [isOutside]
  have h4 : mandelbrotEscape 2 0 100 = 3 := by
    rw [mandelbrotEscape, if_neg h1, if_neg h2, if_neg h3]
    rw [mandelIter_step (by norm_num)]
    rw [mandelIter_step (by norm_num)]
    norm_num
    rw [mandelIter_stop (by norm_num)]
  have h5 : specEscapeCount 2 0 100 = 2 := by
    rw [specEscapeCount]
    rw [specEscapeFrom_cont (by norm_num) (by norm_num [normSqZ, zorbit])]
    rw [specEscapeFrom_esc (by norm_num) (by norm_num [normSqZ, zorbit])]
  exact ⟨h1, h2, h3, h4, h5, by rw [h4, h5]; norm_num⟩

/-- C2 (amended): for every c = (cx, cy) passing the three short-circuit tests
and every maxIter at least 1, the iterative branch returns lagEscapeFrom, the
least k = j + 1 at least 1 such that the orbit iterate BEFORE the final update,
z_j, has squared magnitude above 4.0, clamped to maxIter; since z_0 = 0 this is
min(nstar + 1, maxIter) where nstar is the least n with squared magnitude of
z_n above 4.0, one more than the count the claim states: the guard of the
do-while loop tests the squares saved before the update, so the counter is
incremented once more after the escape is reached. -/
theorem escape_iterative_lagged_count (cx cy : ℚ) (m : ℕ) (hm : 1 ≤ m)
    (h1 : ¬ inCardioid cx cy) (h2 : ¬ inBulb cx cy) (h3 : ¬ isOutside cx cy) :
    mandelbrotEscape cx cy m = lagEscapeFrom cx cy m 0 := by
  rw [mandelbrotEscape, if_neg h1, if_neg h2, if_neg h3]
  exact mandelIter_eq_lag cx cy m hm

/-- C2 witness: the amended theorem applied at c = (2, 0), maxIter = 100. -/
theorem escape_iterative_lagged_count_witness :
    (1 ≤ 100 ∧ ¬ inCardioid 2 0 ∧ ¬ inBulb 2 0 ∧ ¬ isOutside 2 0) ∧
      mandelbrotEscape 2 0 100 = lagEscapeFrom 2 0 100 0 :=
  ⟨⟨by norm_num, by norm_num [inCardioid], by norm_num [inBulb], by norm_num [isOutside]⟩,
    escape_iterative_lagged_count 2 0 100 (by norm_num) (by norm_num [inCardioid])
      (by norm_num [inBulb]) (by norm_num [isOutside])⟩

/-- C1 counterexample: viewport real and imag in [0, 1], raster 100 x 100,
cursor at pixel (0, 0), wheel up.  Before the zoom the cursor maps to real
coordinate 0; after the zoom the same pixel maps to -2/5.  The cursor
coordinate is NOT invariant under the wheel zoom. -/
theorem zoom_cursor_not_fixed :
    toComplexRe 0 100 (zoomView ⟨0, 1, 0, 1⟩ 100 100 0 0 1).Re_min
        (zoomView ⟨0, 1, 0, 1⟩ 100 100 0 0 1).Re_max
      ≠ toComplexRe 0 100 (0 : ℚ) 1 := by
  norm_num [zoomView, toComplexRe]

/-- C1 (amended): the wheel zoom recenters the viewport on the complex
coordinate under the cursor: after the zoom, the raster CENTER pixel
(w/2, h/2) maps exactly to the coordinate the cursor pixel mapped to before
the zoom (both axes, exact rational arithmetic); the coordinate under the
cursor pixel itself is preserved only when the cursor is at the raster
center. -/
theorem zoom_recenters_at_cursor (v : Viewport) (w h : ℕ) (mx my wheel : ℚ)
    (hw : 0 < w) (hh : 0 < h) :
    toComplexRe ((w : ℚ) / 2) w (zoomView v w h mx my wheel).Re_min
        (zoomView v w h mx my wheel).Re_max
      = toComplexRe mx w v.Re_min v.Re_max ∧
    toComplexIm ((h : ℚ) / 2) h (zoomView v w h mx my wheel).Im_min
        (zoomView v w h mx my wheel).Im_max
      = toComplexIm my h v.Im_min v.Im_max := by
  have hw0 : (w : ℚ) ≠ 0 := Nat.cast_ne_zero.mpr (by omega)
  have hh0 : (h : ℚ) ≠ 0 := Nat.cast_ne_zero.mpr (by omega)
  simp only [zoomView, toComplexRe, toComplexIm]
  constructor
  · field_simp
    ring_nf
  · field_simp
    ring_nf

/-- C1 witness: the amended theorem applied to the viewport [0,1] x [0,1],
raster 100 x 100, cursor pixel (0, 0), wheel up. -/
theorem zoom_recenters_at_cursor_witness :
    (0 < 100 ∧ 0 < 100) ∧
      (toComplexRe ((100 : ℚ) / 2) 100 (zoomView ⟨0, 1, 0, 1⟩ 100 100 0 0 1).Re_min
          (zoomView ⟨0, 1, 0, 1⟩ 100 100 0 0 1).Re_max
        = toComplexRe 0 100 (Viewport.mk 0 1 0 1).Re_min (Viewport.mk 0 1 0 1).Re_max ∧
      toComplexIm ((100 : ℚ) / 2) 100 (zoomView ⟨0, 1, 0, 1⟩ 100 100 0 0 1).Im_min
          (zoomView ⟨0, 1, 0, 1⟩ 100 100 0 0 1).Im_max
        = toComplexIm 0 100 (Viewport.mk 0 1 0 1).Im_min (Viewport.mk 0 1 0 1).Im_max) :=
  ⟨⟨by norm_num, by norm_num⟩,
    zoom_recenters_at_cursor ⟨0, 1, 0, 1⟩ 100 100 0 0 1 (by norm_num) (by norm_num)⟩

/-- C9: for all positive old and new raster sizes, the resize operation
multiplies the real-axis range by newW/oldW and the imaginary-axis range by
newH/oldH while both plane-center coordinates stay unchanged. -/
theorem resize_scales_ranges_keeps_center (v : Viewport) (w h w2 h2 : ℕ)
    (hw : 0 < w) (hh : 0 < h) (hw2 : 0 < w2) (hh2 : 0 < h2) :
    (resizeView v w h w2 h2).Re_max - (resizeView v w h w2 h2).Re_min
        = (v.Re_max - v.Re_min) * ((w2 : ℚ) / w) ∧
    (resizeView v w h w2 h2).Im_max - (resizeView v w h w2 h2).Im_min
        = (v.Im_max - v.Im_min) * ((h2 : ℚ) / h) ∧
    ((resizeView v w h w2 h2).Re_min + (resizeView v w h w2 h2).Re_max) / 2
        = (v.Re_min + v.Re_max) / 2 ∧
    ((resizeView v w h w2 h2).Im_min + (resizeView v w h w2 h2).Im_max) / 2
        = (v.Im_min + v.Im_max) / 2 := by
  simp only [resizeView]
  exact ⟨by ring, by ring, by ring, by ring⟩

/-- C9 witness: resizing a 900 x 900 raster to 450 x 300 over the default
viewport. -/
theorem resize_scales_ranges_keeps_center_witness :
    (0 < 900 ∧ 0 < 900 ∧ 0 < 450 ∧ 0 < 300) ∧
      ((resizeView defaultView 900 900 450 300).Re_max
            - (resizeView defaultView 900 900 450 300).Re_min
          = (defaultView.Re_max - defaultView.Re_min) * ((450 : ℚ) / 900) ∧
        (resizeView defaultView 900 900 450 300).Im_max
            - (resizeView defaultView 900 900 450 300).Im_min
          = (defaultView.Im_max - defaultView.Im_min) * ((300 : ℚ) / 900) ∧
        ((resizeView defaultView 900 900 450 300).Re_min
              + (resizeView defaultView 900 900 450 300).Re_max) / 2
          = (defaultView.Re_min + defaultView.Re_max) / 2 ∧
        ((resizeView defaultView 900 900 450 300).Im_min
              + (resizeView defaultView 900 900 450 300).Im_max) / 2
          = (defaultView.Im_min + defaultView.Im_max) / 2) :=
  ⟨⟨by norm_num, by norm_num, by norm_num, by norm_num⟩,
    resize_scales_ranges_keeps_center defaultView 900 900 450 300
      (by norm_num) (by norm_num) (by norm_num) (by norm_num)⟩

/-- C5: the render scheduler takes numThreads directly from the reported
hardware concurrency with no minimum of 1: when the environment reports 0,
the chosen worker count is 0, no worker is spawned, and a whole render pass
leaves every entry of the pixel buffer untouched. -/
theorem worker_count_zero_renders_nothing :
    numThreads 0 = 0 ∧
      renderPass (-2) (3/2) (-3/2) (3/2) 900 900 (numThreads 0)
          (fun _ => Color.black)
        = (fun _ => Color.black) :=
  ⟨rfl, rfl⟩

/-- C7: a completed render pass is a deterministic function of the viewport
bounds and the raster dimensions alone: for every in-range buffer index, two
passes over the same viewport and raster agree regardless of the worker count
and of the initial buffer contents. -/
theorem render_deterministic (rmin rmax imin imax : ℚ) (w h W1 W2 : ℕ)
    (init1 init2 : ℕ → Color) (hW1 : 1 ≤ W1) (hW2 : 1 ≤ W2)
    (i : ℕ) (hi : i < w * h) :
    renderPass rmin rmax imin imax w h W1 init1 i
      = renderPass rmin rmax imin imax w h W2 init2 i := by
  rcases Nat.eq_zero_or_pos w with rfl | hw
  · rw [Nat.zero_mul] at hi
    exact absurd hi (Nat.not_lt_zero i)
  have hx : i % w < w := Nat.mod_lt _ hw
  have hi2 : i < h * w := by rw [Nat.mul_comm h w]; exact hi
  have hy : i / w < h := (Nat.div_lt_iff_lt_mul hw).mpr hi2
  have hcomm : w * (i / w) = (i / w) * w := Nat.mul_comm _ _
  have hsplit : i % w + w * (i / w) = i := Nat.mod_add_div i w
  have hidx : (i / w) * w + i % w = i := by omega
  rw [← hidx]
  rw [renderPass_pixel rmin rmax imin imax w h W1 init1 hW1 (i % w) (i / w) hx hy]
  rw [renderPass_pixel rmin rmax imin imax w h W2 init2 hW2 (i % w) (i / w) hx hy]

/-- C7 witness: a 1 x 1 raster rendered with 1 worker from a black buffer and
with 2 workers from a differently initialized buffer. -/
theorem render_deterministic_witness :
    (1 ≤ 1 ∧ 1 ≤ 2 ∧ 0 < 1 * 1) ∧
      renderPass 0 1 0 1 1 1 1 (fun _ => Color.black) 0
        = renderPass 0 1 0 1 1 1 2 (fun _ => Color.fromHSV 7 0 0) 0 :=
  ⟨⟨by norm_num, by norm_num, by norm_num⟩,
    render_deterministic 0 1 0 1 1 1 1 2 (fun _ => Color.black)
      (fun _ => Color.fromHSV 7 0 0) (by norm_num) (by norm_num) 0 (by norm_num)⟩

/-- C8: with the default viewport (real in [-2, 1.5], imag in [-1.5, 1.5]),
a 900 x 900 raster and maxIter = 100, pixel (450, 450) maps to the complex
point (-1/4, 0), which satisfies the main-cardioid test, mandelbrotEscape
returns 100, and any complete render pass stores the fixed interior color
black at buffer index 450 * 900 + 450. -/
theorem center_pixel_black (W : ℕ) (init : ℕ → Color) (hW : 1 ≤ W) :
    toComplexRe 450 900 (-2) (3/2) = -(1/4) ∧
    toComplexIm 450 900 (-3/2) (3/2) = 0 ∧
    inCardioid (-(1/4)) 0 ∧
    mandelbrotEscape (-(1/4)) 0 100 = 100 ∧
    renderPass (-2) (3/2) (-3/2) (3/2) 900 900 W init (450 * 900 + 450)
      = Color.black := by
  have h1 : toComplexRe 450 900 (-2) (3/2) = -(1/4) := by
    rw [toComplexRe]
    norm_num
  have h2 : toComplexIm 450 900 (-3/2) (3/2) = 0 := by
    rw [toComplexIm]
    norm_num
  have h3 : inCardioid (-(1/4)) 0 := by norm_num [inCardioid]
  have h4 : mandelbrotEscape (-(1/4)) 0 100 = 100 := by
    rw [mandelbrotEscape, if_pos h3]
  refine ⟨h1, h2, h3, h4, ?_⟩
  rw [renderPass_pixel (-2) (3/2) (-3/2) (3/2) 900 900 W init hW 450 450
    (by norm_num) (by norm_num)]
  have hRe : toComplexRe ((450 : ℕ) : ℚ) 900 (-2) (3/2) = -(1/4) := by
    rw [toComplexRe]
    norm_num
  have hIm : toComplexIm ((450 : ℕ) : ℚ) 900 (-3/2) (3/2) = 0 := by
    rw [toComplexIm]
    norm_num
  rw [pixelColor, hRe, hIm]
  simp only [MAX_ITER]
  rw [h4, colorize, if_pos rfl]

/-- C8 witness: the end-to-end scenario with one worker and a white-free
initial buffer. -/
theorem center_pixel_black_witness :
    1 ≤ 1 ∧
      (toComplexRe 450 900 (-2) (3/2) = -(1/4) ∧
        toComplexIm 450 900 (-3/2) (3/2) = 0 ∧
        inCardioid (-(1/4)) 0 ∧
        mandelbrotEscape (-(1/4)) 0 100 = 100 ∧
        renderPass (-2) (3/2) (-3/2) (3/2) 900 900 1 (fun _ => Color.fromHSV 0 0 0)
            (450 * 900 + 450)
          = Color.black) :=
  ⟨by norm_num, center_pixel_black 1 (fun _ => Color.fromHSV 0 0 0) (by norm_num)⟩

/-- C4: for every raster with positive width and height and every worker count
W at least 1, each pixel (x, y) of the raster lies in exactly one tile of the
ceil-grid tilesX x tilesY, and the linear index of that tile is iterated by
exactly one worker under the round-robin assignment: there is exactly one
triple (worker, tileX, tileY) with the worker below W, the tile inside the
grid, the pixel inside the clipped tile region, and the tile index in that
worker's list. -/
theorem tiles_cover_disjoint_roundrobin (w h W x y : ℕ)
    (hw : 0 < w) (hh : 0 < h) (hW : 1 ≤ W) (hx : x < w) (hy : y < h) :
    ∃! p : ℕ × ℕ × ℕ, p.1 < W ∧ p.2.1 < tilesX w ∧ p.2.2 < tilesY h ∧
      pixelInTile p.2.1 p.2.2 w h x y ∧
      p.2.2 * tilesX w + p.2.1 ∈ workerTiles p.1 W (totalTiles w h) := by
  have htX := div_lt_tilesX hx
  have htY := div_lt_tilesY hy
  have htot := tileIndex_lt_total hx hy
  refine ⟨(((y / TILE_SIZE) * tilesX w + x / TILE_SIZE) % W, x / TILE_SIZE,
    y / TILE_SIZE), ⟨?_, ?_, ?_, ?_, ?_⟩, ?_⟩
  · exact Nat.mod_lt _ hW
  · exact htX
  · exact htY
  · exact pixelInTile_self hx hy
  · exact mem_workerTiles hW htot
  · rintro ⟨t, tX, tY⟩ ⟨h1, h2, h3, h4, h5⟩
    dsimp only at h1 h2 h3 h4 h5
    simp only [pixelInTile, TILE_SIZE] at h4
    have heX : tX = x / TILE_SIZE := by
      simp only [TILE_SIZE]
      omega
    have heY : tY = y / TILE_SIZE := by
      simp only [TILE_SIZE]
      omega
    have h6 := workerTiles_mem_elim h1 h5
    simp only [Prod.mk.injEq]
    refine ⟨?_, heX, heY⟩
    rw [h6.1, heX, heY]

/-- C4 witness: a 70 x 70 raster (a 2 x 2 tile grid) with 3 workers and the
pixel (65, 65) in the bottom-right tile. -/
theorem tiles_cover_disjoint_roundrobin_witness :
    (0 < 70 ∧ 0 < 70 ∧ 1 ≤ 3 ∧ 65 < 70 ∧ 65 < 70) ∧
      (∃! p : ℕ × ℕ × ℕ, p.1 < 3 ∧ p.2.1 < tilesX 70 ∧ p.2.2 < tilesY 70 ∧
        pixelInTile p.2.1 p.2.2 70 70 65 65 ∧
        p.2.2 * tilesX 70 + p.2.1 ∈ workerTiles p.1 3 (totalTiles 70 70)) :=
  ⟨⟨by norm_num, by norm_num, by norm_num, by norm_num, by norm_num⟩,
    tiles_cover_disjoint_roundrobin 70 70 3 65 65 (by norm_num) (by norm_num)
      (by norm_num) (by norm_num) (by norm_num)⟩

/-- C10: frame property of RenderTile: for every tile, raster, bounds and
buffer, an index that is not of the form y * width + x for a pixel (x, y) of
the clipped tile region is left unchanged by RenderTile. -/
theorem renderTile_frame_property (tX tY w h : ℕ) (rmin rmax imin imax : ℚ)
    (buf : ℕ → Color) (i : ℕ) (hw : 0 < w) (hh : 0 < h)
    (hout : ¬ ∃ x y, tX * TILE_SIZE ≤ x ∧ x < min (tX * TILE_SIZE + TILE_SIZE) w ∧
      tY * TILE_SIZE ≤ y ∧ y < min (tY * TILE_SIZE + TILE_SIZE) h ∧ i = y * w + x) :
    renderTile tX tY w h rmin rmax imin imax buf i = buf i := by
  apply renderTile_apply_frame
  intro x y h1 h2 h3 h4 he
  exact hout ⟨x, y, h1, h2, h3, h4, he⟩

/-- C10 witness: on a 4 x 4 raster the single tile (0, 0) covers indices
0 to 15, so index 16 is untouched. -/
theorem renderTile_frame_property_witness :
    (0 < 4 ∧ 0 < 4 ∧
      ¬ ∃ x y, 0 * TILE_SIZE ≤ x ∧ x < min (0 * TILE_SIZE + TILE_SIZE) 4 ∧
        0 * TILE_SIZE ≤ y ∧ y < min (0 * TILE_SIZE + TILE_SIZE) 4 ∧ 16 = y * 4 + x) ∧
      renderTile 0 0 4 4 0 1 0 1 (fun _ => Color.black) 16
        = (fun _ => Color.black) 16 := by
  have hout : ¬ ∃ x y, 0 * TILE_SIZE ≤ x ∧ x < min (0 * TILE_SIZE + TILE_SIZE) 4 ∧
      0 * TILE_SIZE ≤ y ∧ y < min (0 * TILE_SIZE + TILE_SIZE) 4 ∧ 16 = y * 4 + x := by
    rintro ⟨x, y, h1, h2, h3, h4, h5⟩
    simp only [TILE_SIZE] at h2 h4
    omega
  exact ⟨⟨by norm_num, by norm_num, hout⟩,
    renderTile_frame_property 0 0 4 4 0 1 0 1 (fun _ => Color.black) 16
      (by norm_num) (by norm_num) hout⟩
